import Mathlib

/-!
Shallow embedding of `src/main.rs` of the `rust-todo` repository.

Strings are modelled as `List Char` (Rust `String` is a sequence of
characters; none of the claims depend on UTF-8 byte layout).  Rust `u32`
values are modelled as `Nat` together with explicit `< 2^32` bounds where
the code's arithmetic or parsing makes the bound matter.  Rust panics
(`unwrap` failures, arithmetic overflow in a debug build) are modelled as
`Option.none`: a panicking call returns no value and produces no state.
-/

namespace RustTodo

/-- `2^32`, the number of `u32` values: `u32` arithmetic and
`str::parse::<u32>` stay strictly below this bound. -/
def U32LIM : Nat := 4294967296

/-! ## Decimal digits: rendering and reading

Rust's `Display for u32` renders the usual decimal digits; `parse::<u32>`
accepts an optional leading `+` followed by one or more decimal digits,
rejecting values above `u32::MAX`. -/

/-- The decimal digit character for `d < 10`. -/
def digitChar (d : Nat) : Char := Char.ofNat (48 + d)

/-- Numeric value of a decimal digit character. -/
def charToDigit (c : Char) : Nat := c.toNat - 48

/-- Decimal value of a most-significant-first digit string
(the accumulator loop inside Rust's integer parsing). -/
def readNat (l : List Char) : Nat := l.foldl (fun a c => 10 * a + charToDigit c) 0

/-- Fuel-driven decimal rendering, most significant digit first
(`u32::to_string`); `natToChars` supplies sufficient fuel. -/
def natToCharsAux : Nat → Nat → List Char → List Char
  | 0, _, acc => acc
  | fuel + 1, n, acc =>
    if n < 10 then digitChar n :: acc
    else natToCharsAux fuel (n / 10) (digitChar (n % 10) :: acc)

/-- Decimal rendering of a natural number (`u32::to_string`). -/
def natToChars (n : Nat) : List Char := natToCharsAux (n + 1) n []

/-- `str::parse::<u32>`: optional leading `+`, then decimal digits,
value below `2^32`.  `none` models the `Err` case (which the program
always `unwrap`s, i.e. turns into a panic). -/
def parseU32 (l : List Char) : Option Nat :=
  let l2 := match l with
    | c :: rest => if c = '+' then rest else c :: rest
    | [] => []
  if l2 ≠ [] ∧ l2.all Char.isDigit ∧ readNat l2 < U32LIM then some (readNat l2)
  else none

/-- The characters of the literal `true`. -/
def trueChars : List Char := ['t', 'r', 'u', 'e']

/-- The characters of the literal `false`. -/
def falseChars : List Char := ['f', 'a', 'l', 's', 'e']

/-- `Display for bool`: the literal `true` or `false`. -/
def boolChars (b : Bool) : List Char := if b then trueChars else falseChars

/-- `str::parse::<bool>`: accepts exactly the literals `true` and `false`. -/
def parseBool (l : List Char) : Option Bool :=
  if l = trueChars then some true
  else if l = falseChars then some false
  else none

/-! ## Timestamps

`created_at` is a `chrono::DateTime<Local>`, an external library type.
Modelled from the spec: the timestamp is "a local-time date/time rendered
in a fixed, locale-independent debug format" (RFC 3339-like, e.g.
`2024-01-02T03:04:05.678+01:00`), parsed back by `chrono`'s `FromStr`.
We model a timestamp by its rendered character string, constrained to the
shape `dddd-dd-ddTdd:dd:dd` followed by an optional fraction and a
numeric offset (characters drawn from digits and `.`, `+`, `-`, `:`);
`parseTs` accepts exactly those strings.  Rendered `chrono` timestamps
satisfy the shape, and every accepted string is comma-free and
newline-free, which is all the program's serialization relies on. -/

/-- Consume exactly `n` decimal digits, returning the rest of the input. -/
def digitsN : Nat → List Char → Option (List Char)
  | 0, l => some l
  | _ + 1, [] => none
  | n + 1, c :: l => if c.isDigit then digitsN n l else none

/-- Consume one expected character, returning the rest of the input. -/
def expectChar (c : Char) : List Char → Option (List Char)
  | [] => none
  | d :: l => if d = c then some l else none

/-- Consume the fixed `dddd-dd-ddTdd:dd:dd` date-time core. -/
def tsShape (l : List Char) : Option (List Char) := do
  let r ← digitsN 4 l
  let r ← expectChar '-' r
  let r ← digitsN 2 r
  let r ← expectChar '-' r
  let r ← digitsN 2 r
  let r ← expectChar 'T' r
  let r ← digitsN 2 r
  let r ← expectChar ':' r
  let r ← digitsN 2 r
  let r ← expectChar ':' r
  let r ← digitsN 2 r
  pure r

/-- The characters a rendered timestamp is built from: decimal digits
and the date/time punctuation of the RFC 3339-like debug format. -/
def tsChar (c : Char) : Bool :=
  c.isDigit || c = '-' || c = 'T' || c = ':' || c = '.' || c = '+'

/-- Well-formedness of a rendered timestamp string: the fixed date-time
core followed by fraction/offset material over the timestamp alphabet. -/
def tsWf (l : List Char) : Bool :=
  (tsShape l).isSome && l.all tsChar

/-- A timestamp value, represented by its rendered string. -/
def Ts : Type := { l : List Char // tsWf l = true }

instance : DecidableEq Ts := fun a b =>
  if h : a.val = b.val then .isTrue (Subtype.ext h)
  else .isFalse fun hh => h (congrArg Subtype.val hh)

/-- `chrono`'s `FromStr` for `DateTime<Local>` on a field string. -/
def parseTs (l : List Char) : Option Ts :=
  if h : tsWf l = true then some ⟨l, h⟩ else none

/-! ## The data model (`struct Todo`, `struct Metadata`) -/

/-- `struct Todo { id: u32, is_completed: bool, text: String,
created_at: DateTime<Local> }`. -/
structure Todo where
  id : Nat
  is_completed : Bool
  text : List Char
  created_at : Ts
deriving DecidableEq

/-- `struct Metadata { seq_id: u32 }`. -/
structure Metadata where
  seq_id : Nat
deriving DecidableEq

/-! ## Splitting (`str::split`, `BufRead::lines`, `str::trim`) -/

/-- `str::split(sep)`: split at every occurrence of `sep`; always returns
at least one (possibly empty) piece. -/
def splitOnChar (sep : Char) : List Char → List (List Char)
  | [] => [[]]
  | c :: cs =>
    let r := splitOnChar sep cs
    if c = sep then [] :: r else (c :: r.headD []) :: r.tail

/-- Drop the final piece when it is empty (a trailing line terminator
produces no extra line in Rust's `lines()`). -/
def dropTrailEmpty (parts : List (List Char)) : List (List Char) :=
  if parts.getLast? = some [] then parts.dropLast else parts

/-- Strip one trailing carriage return from a line (`lines()` treats
`\r\n` as a line terminator). -/
def stripCr (l : List Char) : List Char :=
  if l.getLast? = some '\r' then l.dropLast else l

/-- `BufRead::lines` on the whole file content. -/
def rustLines (s : List Char) : List (List Char) :=
  (dropTrailEmpty (splitOnChar '\n' s)).map stripCr

/-- The content a first `read_line` call delivers, up to the first
newline (the terminator itself is removed by the subsequent `trim`). -/
def firstLineOf (s : List Char) : List Char := s.takeWhile (· ≠ '\n')

/-- Whitespace as stripped by `str::trim` (the whitespace characters the
program can actually encounter on a line of console or file input). -/
def wsChar (c : Char) : Bool := c = ' ' || c = '\t' || c = '\n' || c = '\r'

/-- `str::trim`: remove leading and trailing whitespace. -/
def rustTrim (l : List Char) : List Char :=
  ((l.dropWhile wsChar).reverse.dropWhile wsChar).reverse

/-! ## Serialization (`Display` / `FromStr` for `Todo` and `Metadata`) -/

/-- `impl fmt::Display for Todo`:
`"{id},{created_at:?},{text},{is_completed}"`. -/
def todoChars (t : Todo) : List Char :=
  natToChars t.id ++ ',' :: t.created_at.val ++ ',' :: t.text
    ++ ',' :: boolChars t.is_completed

/-- The characters of the metadata key `seq_id:`. -/
def seqPrefix : List Char := ['s', 'e', 'q', '_', 'i', 'd', ':']

/-- `impl fmt::Display for Metadata`: `"seq_id:{seq_id}"`. -/
def metaChars (m : Metadata) : List Char := seqPrefix ++ natToChars m.seq_id

/-- `impl FromStr for Todo`: split on `,`, require exactly 4 fields, then
parse id (`u32`), timestamp and completion flag; any failure (the field
count `Err` or one of the `unwrap`ed field parses) is `none`. -/
def parseTodo (l : List Char) : Option Todo :=
  match splitOnChar ',' l with
  | [e0, e1, e2, e3] =>
    match parseU32 e0, parseTs e1, parseBool e3 with
    | some i, some ca, some b => some ⟨i, b, e2, ca⟩
    | _, _, _ => none
  | _ => none

/-- `impl FromStr for Metadata`: require the `seq_id:` literal at the
start, split on `:` into exactly 2 pieces, parse the value as `u32`. -/
def parseMetadata (l : List Char) : Option Metadata :=
  if seqPrefix.isPrefixOf l then
    match splitOnChar ':' l with
    | [_, e1] => (parseU32 e1).map Metadata.mk
    | _ => none
  else none

/-! ## Persistence (`save_todos`, `load_metadata` + `load_todos`) -/

/-- `save_todos`: the metadata line, a newline, then the rendered todos
joined by newlines (`Vec::join("\n")` — no trailing newline). -/
def joinNl : List (List Char) → List Char
  | [] => []
  | [x] => x
  | x :: xs => x ++ '\n' :: joinNl xs

/-- The full file content written by `save_todos`. -/
def saveFile (m : Metadata) (todos : List Todo) : List Char :=
  metaChars m ++ '\n' :: joinNl (todos.map todoChars)

/-- Parse every task line, failing if any line fails (`load_todos`
`unwrap`s each parse). -/
def parseAll : List (List Char) → Option (List Todo)
  | [] => some []
  | l :: ls =>
    match parseTodo l, parseAll ls with
    | some t, some ts => some (t :: ts)
    | _, _ => none

/-- Loading at startup: `load_metadata` (first line, trimmed) followed by
`load_todos` (every line after the first).  The argument is `none` when
the persistence file is missing (`File::open` fails, `unwrap` panics);
the result is `none` whenever the process aborts instead of producing a
store state. -/
def loadFile (file : Option (List Char)) : Option (Metadata × List Todo) :=
  match file with
  | none => none
  | some s =>
    match parseMetadata (rustTrim (firstLineOf s)), parseAll ((rustLines s).drop 1) with
    | some m, some ts => some (m, ts)
    | _, _ => none

/-! ## Store operations

`set_todo_completed` and `delete_todo` first read an id from standard
input with `trim().parse::<u32>().unwrap()` (a non-`u32` input panics);
the functions below model the part operating on the parsed id. -/

/-- `new_todo`: bump the sequence counter (u32 increment; overflow panics
in a debug build, modelled as `none`), stamp the current time, store the
trimmed input line as text, `is_completed = false`. -/
def new_todo (m : Metadata) (input : List Char) (now : Ts) :
    Option (Metadata × Todo) :=
  if m.seq_id + 1 < U32LIM then
    some (⟨m.seq_id + 1⟩, ⟨m.seq_id + 1, false, rustTrim input, now⟩)
  else none

/-- `set_todo_completed` on a parsed id: set `is_completed` on the first
task with that id; the flag reports whether a task was found (`false`
means the "Could not find Todo by that id" message). -/
def set_todo_completed : List Todo → Nat → List Todo × Bool
  | [], _ => ([], false)
  | t :: ts, i =>
    if t.id = i then ({ t with is_completed := true } :: ts, true)
    else
      let r := set_todo_completed ts i
      (t :: r.1, r.2)

/-- `delete_todo` on a parsed id: remove the first task with that id
(`position` + `remove`); the flag reports whether a task was found. -/
def delete_todo : List Todo → Nat → List Todo × Bool
  | [], _ => ([], false)
  | t :: ts, i =>
    if t.id = i then (ts, true)
    else
      let r := delete_todo ts i
      (t :: r.1, r.2)

/-- The store state owned by `main`: the metadata and the todo vector. -/
def StoreState : Type := Metadata × List Todo

/-- The `"4"` branch of `main`: completing leaves the metadata untouched. -/
def completeOp (s : StoreState) (i : Nat) : StoreState × Bool :=
  ((s.1, (set_todo_completed s.2 i).1), (set_todo_completed s.2 i).2)

/-- The `"5"` branch of `main`: deleting leaves the metadata untouched. -/
def deleteOp (s : StoreState) (i : Nat) : StoreState × Bool :=
  ((s.1, (delete_todo s.2 i).1), (delete_todo s.2 i).2)

/-- `print_todos`: the sequence of tasks actually rendered — every task,
in order, skipping completed ones when `only_open_todos` is set. -/
def listTodos (todos : List Todo) (only_open_todos : Bool) : List Todo :=
  todos.filter fun t => !(only_open_todos && t.is_completed)

/-! ## The menu loop (`main`) -/

/-- The six behaviours of the menu `match`. -/
inductive MenuAction where
  | showAll
  | showOpen
  | createTodo
  | completeTodo
  | deleteTodo
  | saveAndExit
deriving DecidableEq

/-- The dispatch in `main`: `match input.trim()` with arms `"1"`..`"5"`
and a catch-all `_` that saves and breaks the loop. -/
def dispatch (input : List Char) : MenuAction :=
  if rustTrim input = ['1'] then .showAll
  else if rustTrim input = ['2'] then .showOpen
  else if rustTrim input = ['3'] then .createTodo
  else if rustTrim input = ['4'] then .completeTodo
  else if rustTrim input = ['5'] then .deleteTodo
  else .saveAndExit

/-! ## Session steps and reachability -/

/-- One store operation as observable at the `main` loop. -/
inductive Op where
  | create (input : List Char) (now : Ts)
  | complete (i : Nat)
  | del (i : Nat)
  | saveload

/-- State transition of one successful operation.  A `create` input comes
from one `read_line` call, so it contains no interior newline.  A
`saveload` step is `save_todos` at exit followed by a successful load at
the next start; when the load panics there is no successor state. -/
inductive Step : StoreState → Op → StoreState → Prop where
  | create : ∀ m ts input now m' t, '\n' ∉ input →
      new_todo m input now = some (m', t) →
      Step (m, ts) (.create input now) (m', ts ++ [t])
  | complete : ∀ m ts i,
      Step (m, ts) (.complete i) (completeOp (m, ts) i).1
  | del : ∀ m ts i,
      Step (m, ts) (.del i) (deleteOp (m, ts) i).1
  | saveload : ∀ m ts s', loadFile (some (saveFile m ts)) = some s' →
      Step (m, ts) .saveload s'

/-- States the program can be in: an initial successful load of some
existing file, followed by any sequence of operations. -/
inductive Reachable : StoreState → Prop where
  | boot : ∀ file s, loadFile (some file) = some s → Reachable s
  | step : ∀ s op s', Reachable s → Step s op s' → Reachable s'

/-- The spec's store invariant: every task id is bounded by the sequence
counter, and no two tasks share an id. -/
def StoreInv (s : StoreState) : Prop :=
  (∀ t ∈ s.2, t.id ≤ s.1.seq_id) ∧ s.2.Pairwise fun a b => a.id ≠ b.id

/-- The data-model constraints every state built by the program obeys:
the invariant, `u32` ranges, and newline-free task texts. -/
def StoreOk (s : StoreState) : Prop :=
  StoreInv s ∧ s.1.seq_id < U32LIM ∧
    ∀ t ∈ s.2, t.id < U32LIM ∧ '\n' ∉ t.text

/-! ## Concrete fixtures (used by example runs of the model) -/

/-- A concrete rendered timestamp string. -/
def sampleTsChars : List Char := "2024-01-02T03:04:05.678+01:00".data

/-- A concrete timestamp value. -/
def sampleTs : Ts := ⟨sampleTsChars, by decide⟩

/-- A persistence file whose lines all parse, but whose task id `5`
exceeds the stored sequence counter `0`. -/
def badBootFile : List Char :=
  "seq_id:0\n5,2024-01-02T03:04:05.678+01:00,a,false".data

/-! ## Character and digit lemmas -/

lemma digit_charToDigit {d : Nat} (h : d < 10) : charToDigit (digitChar d) = d := by
  interval_cases d <;> decide

lemma digit_isDigit {d : Nat} (h : d < 10) : (digitChar d).isDigit = true := by
  interval_cases d <;> decide

lemma digit_ne {c d : Char} (h : c.isDigit = true) (hd : d.isDigit = false) : c ≠ d := by
  intro e
  subst e
  rw [h] at hd
  exact Bool.noConfusion hd

lemma readNat_append (xs : List Char) (c : Char) :
    readNat (xs ++ [c]) = 10 * readNat xs + charToDigit c := by
  unfold readNat
  rw [List.foldl_append]
  rfl

lemma natToCharsAux_spec :
    ∀ fuel n acc, n < fuel →
      ∃ ds, natToCharsAux fuel n acc = ds ++ acc ∧ ds ≠ [] ∧
        (∀ c ∈ ds, c.isDigit = true) ∧ readNat ds = n := by
  intro fuel
  induction fuel with
  | zero => intro n acc h; omega
  | succ fuel ih =>
    intro n acc h
    by_cases h10 : n < 10
    · refine ⟨[digitChar n], by simp [natToCharsAux, h10], by simp, ?_, ?_⟩
      · intro c hc
        rw [List.mem_singleton] at hc
        subst hc
        exact digit_isDigit h10
      · show readNat [digitChar n] = n
        unfold readNat
        simp [digit_charToDigit h10]
    · have hn : n / 10 < fuel := by omega
      obtain ⟨ds, hEq, hne, hdig, hval⟩ := ih (n / 10) (digitChar (n % 10) :: acc) hn
      have hm : n % 10 < 10 := Nat.mod_lt _ (by norm_num)
      refine ⟨ds ++ [digitChar (n % 10)], ?_, by simp [hne], ?_, ?_⟩
      · rw [List.append_assoc]
        simpa [natToCharsAux, h10] using hEq
      · intro c hc
        rcases List.mem_append.mp hc with hc | hc
        · exact hdig c hc
        · rw [List.mem_singleton] at hc
          subst hc
          exact digit_isDigit hm
      · rw [readNat_append, hval, digit_charToDigit hm]
        omega

lemma natToChars_spec (n : Nat) :
    natToChars n ≠ [] ∧ (∀ c ∈ natToChars n, c.isDigit = true) ∧
      readNat (natToChars n) = n := by
  obtain ⟨ds, hEq, hne, hdig, hval⟩ := natToCharsAux_spec (n + 1) n [] (Nat.lt_succ_self n)
  unfold natToChars
  rw [hEq, List.append_nil]
  exact ⟨hne, hdig, hval⟩

lemma parseU32_digits {l : List Char} (hne : l ≠ []) (hdig : ∀ c ∈ l, c.isDigit = true)
    (hlt : readNat l < U32LIM) : parseU32 l = some (readNat l) := by
  obtain ⟨c, cs, rfl⟩ := List.exists_cons_of_ne_nil hne
  have hcp : c ≠ '+' := digit_ne (hdig c (List.mem_cons_self c cs)) (by decide)
  have hall : (c :: cs).all Char.isDigit = true := List.all_eq_true.mpr hdig
  simp only [parseU32, if_neg hcp]
  rw [if_pos ⟨List.cons_ne_nil c cs, hall, hlt⟩]

lemma parseU32_natToChars {n : Nat} (h : n < U32LIM) :
    parseU32 (natToChars n) = some n := by
  obtain ⟨hne, hdig, hval⟩ := natToChars_spec n
  rw [parseU32_digits hne hdig (by rw [hval]; exact h), hval]

lemma parseBool_boolChars (b : Bool) : parseBool (boolChars b) = some b := by
  cases b <;> decide

lemma parseTs_val (t : Ts) : parseTs t.val = some t := by
  unfold parseTs
  rw [dif_pos t.property]
  rfl

lemma tsWf_mem {l : List Char} (h : tsWf l = true) {c : Char} (hc : c ∈ l) :
    tsChar c = true := by
  unfold tsWf at h
  exact List.all_eq_true.mp (Bool.and_elim_right h) c hc

lemma tsChar_ne {c d : Char} (h : tsChar c = true) (hd : tsChar d = false) : c ≠ d := by
  intro e
  subst e
  rw [h] at hd
  exact Bool.noConfusion hd

/-! ## Splitting lemmas -/

lemma splitOnChar_ne_nil (sep : Char) (l : List Char) : splitOnChar sep l ≠ [] := by
  cases l with
  | nil => simp [splitOnChar]
  | cons c cs => by_cases h : c = sep <;> simp [splitOnChar, h]

lemma splitOnChar_cons_eq (sep : Char) {p : List Char} {ps : List (List Char)}
    {c : Char} {cs : List Char} (h : splitOnChar sep cs = p :: ps) (hc : c ≠ sep) :
    splitOnChar sep (c :: cs) = (c :: p) :: ps := by
  simp [splitOnChar, h, hc]

lemma splitOnChar_no_sep {sep : Char} {l : List Char} (h : sep ∉ l) :
    splitOnChar sep l = [l] := by
  induction l with
  | nil => rfl
  | cons c cs ih =>
    rw [List.mem_cons, not_or] at h
    exact splitOnChar_cons_eq sep (ih h.2) fun e => h.1 e.symm

lemma splitOnChar_append {sep : Char} {a : List Char} (b : List Char) (h : sep ∉ a) :
    splitOnChar sep (a ++ sep :: b) = a :: splitOnChar sep b := by
  induction a with
  | nil => simp [splitOnChar]
  | cons c cs ih =>
    rw [List.mem_cons, not_or] at h
    exact splitOnChar_cons_eq sep (ih h.2) fun e => h.1 e.symm

lemma splitOnChar_length (sep : Char) (l : List Char) :
    (splitOnChar sep l).length = l.count sep + 1 := by
  induction l with
  | nil => rfl
  | cons c cs ih =>
    by_cases h : c = sep
    · subst h
      have hstep : splitOnChar c (c :: cs) = [] :: splitOnChar c cs := by
        simp [splitOnChar]
      rw [hstep, List.length_cons, ih, List.count_cons_self]
    · obtain ⟨p, ps, hr⟩ : ∃ p ps, splitOnChar sep cs = p :: ps := by
        cases e : splitOnChar sep cs with
        | nil => exact absurd e (splitOnChar_ne_nil sep cs)
        | cons p ps => exact ⟨p, ps, rfl⟩
      rw [splitOnChar_cons_eq sep hr h, List.count_cons_of_ne (fun e => h e.symm)]
      rw [hr] at ih
      simpa using ih

/-! ## Whitespace and trim lemmas -/

lemma dropWhile_eq_self {p : Char → Bool} {l : List Char} (h : ∀ c ∈ l, p c = false) :
    l.dropWhile p = l := by
  cases l with
  | nil => rfl
  | cons c cs => simp [List.dropWhile, h c (List.mem_cons_self c cs)]

lemma dropWhile_eq_nil {p : Char → Bool} {l : List Char} (h : ∀ c ∈ l, p c = true) :
    l.dropWhile p = [] := by
  induction l with
  | nil => rfl
  | cons c cs ih =>
    simp only [List.dropWhile, h c (List.mem_cons_self c cs)]
    exact ih fun d hd => h d (List.mem_cons_of_mem c hd)

lemma dropWhile_append_all {p : Char → Bool} {pre : List Char} (l : List Char)
    (h : ∀ c ∈ pre, p c = true) : (pre ++ l).dropWhile p = l.dropWhile p := by
  induction pre with
  | nil => rfl
  | cons c cs ih =>
    simp only [List.cons_append, List.dropWhile, h c (List.mem_cons_self c cs)]
    exact ih fun d hd => h d (List.mem_cons_of_mem c hd)

lemma rustTrim_no_ws {l : List Char} (h : ∀ c ∈ l, wsChar c = false) : rustTrim l = l := by
  unfold rustTrim
  rw [dropWhile_eq_self h, dropWhile_eq_self fun c hc => h c (List.mem_reverse.mp hc),
    List.reverse_reverse]

lemma mem_rustTrim {c : Char} {l : List Char} (h : c ∈ rustTrim l) : c ∈ l := by
  unfold rustTrim at h
  rw [List.mem_reverse] at h
  have h2 := (List.dropWhile_sublist _).subset h
  rw [List.mem_reverse] at h2
  exact (List.dropWhile_sublist _).subset h2

lemma rustTrim_surround {pre post core : List Char}
    (hpre : ∀ c ∈ pre, wsChar c = true) (hpost : ∀ c ∈ post, wsChar c = true) :
    rustTrim (pre ++ core ++ post) = rustTrim core := by
  unfold rustTrim
  rw [List.append_assoc, dropWhile_append_all _ hpre, List.dropWhile_append]
  by_cases h : (core.dropWhile wsChar).isEmpty
  · rw [if_pos h, dropWhile_eq_nil hpost]
    rw [List.isEmpty_iff] at h
    rw [h]
  · rw [if_neg h, List.reverse_append,
      dropWhile_append_all _ fun c hc => hpost c (List.mem_reverse.mp hc)]

/-! ## Rendered-line lemmas -/

lemma mem_metaChars {c : Char} {m : Metadata} (h : c ∈ metaChars m) :
    c ∈ seqPrefix ∨ c.isDigit = true := by
  unfold metaChars at h
  rcases List.mem_append.mp h with h | h
  · exact Or.inl h
  · exact Or.inr ((natToChars_spec m.seq_id).2.1 c h)

lemma metaChars_no_nl (m : Metadata) : ('\n' : Char) ∉ metaChars m := by
  intro h
  rcases mem_metaChars h with h | h
  · exact absurd h (by decide)
  · exact absurd h (by decide)

lemma parseMetadata_metaChars {m : Metadata} (h : m.seq_id < U32LIM) :
    parseMetadata (metaChars m) = some m := by
  obtain ⟨hne, hdig, hval⟩ := natToChars_spec m.seq_id
  have hnc : (':' : Char) ∉ natToChars m.seq_id := fun hm => absurd (hdig _ hm) (by decide)
  have hsplit : splitOnChar ':' (metaChars m)
      = [['s', 'e', 'q', '_', 'i', 'd'], natToChars m.seq_id] := by
    rw [show metaChars m = ['s', 'e', 'q', '_', 'i', 'd'] ++ ':' :: natToChars m.seq_id
        from rfl, splitOnChar_append _ (by decide), splitOnChar_no_sep hnc]
  have hpre : seqPrefix.isPrefixOf (metaChars m) = true := by
    rw [List.isPrefixOf_iff_prefix]
    exact List.prefix_append _ _
  simp only [parseMetadata, hpre, if_true, hsplit]
  rw [parseU32_digits hne hdig (show readNat (natToChars m.seq_id) < U32LIM from by
    rw [hval]; exact h), hval]
  rfl

lemma firstLineOf_append {a : List Char} (b : List Char) (h : ('\n' : Char) ∉ a) :
    firstLineOf (a ++ '\n' :: b) = a := by
  unfold firstLineOf
  induction a with
  | nil => simp [List.takeWhile_cons]
  | cons c cs ih =>
    rw [List.mem_cons, not_or] at h
    have hc : c ≠ '\n' := fun e => h.1 e.symm
    rw [List.cons_append, List.takeWhile_cons, if_pos (by simp [hc]), ih h.2]

lemma boolChars_mem {c : Char} {b : Bool} (h : c ∈ boolChars b) :
    c ∈ ['t', 'r', 'u', 'e', 'f', 'a', 'l', 's'] := by
  cases b
  · have h2 : c ∈ ['f', 'a', 'l', 's', 'e'] := h
    fin_cases h2 <;> decide
  · have h2 : c ∈ ['t', 'r', 'u', 'e'] := h
    fin_cases h2 <;> decide

lemma mem_todoChars {c : Char} {t : Todo} (h : c ∈ todoChars t) :
    c.isDigit = true ∨ c = ',' ∨ c ∈ t.created_at.val ∨ c ∈ t.text ∨
      c ∈ boolChars t.is_completed := by
  unfold todoChars at h
  simp only [List.mem_append, List.mem_cons] at h
  rcases h with ((h | h | h) | h | h) | h | h
  · exact Or.inl ((natToChars_spec t.id).2.1 c h)
  · exact Or.inr (Or.inl h)
  · exact Or.inr (Or.inr (Or.inl h))
  · exact Or.inr (Or.inl h)
  · exact Or.inr (Or.inr (Or.inr (Or.inl h)))
  · exact Or.inr (Or.inl h)
  · exact Or.inr (Or.inr (Or.inr (Or.inr h)))

lemma todoChars_no_nl {t : Todo} (h : ('\n' : Char) ∉ t.text) :
    ('\n' : Char) ∉ todoChars t := by
  intro hc
  rcases mem_todoChars hc with h1 | h1 | h1 | h1 | h1
  · exact absurd h1 (by decide)
  · exact absurd h1 (by decide)
  · exact absurd (tsWf_mem t.created_at.property h1) (by decide)
  · exact h h1
  · exact absurd (boolChars_mem h1) (by decide)

lemma todoChars_ne_nil (t : Todo) : todoChars t ≠ [] := by
  intro h
  unfold todoChars at h
  rw [List.append_eq_nil, List.append_eq_nil, List.append_eq_nil] at h
  exact (natToChars_spec t.id).1 h.1.1.1

lemma mem_of_getLast?_eq {α : Type} {l : List α} {y : α} (e : l.getLast? = some y) : y ∈ l := by
  obtain ⟨hne, hy⟩ := List.mem_getLast?_eq_getLast (show y ∈ l.getLast? from e)
  rw [hy]
  exact List.getLast_mem hne

lemma getLast?_todoChars (t : Todo) : (todoChars t).getLast? = some 'e' := by
  unfold todoChars
  rw [List.getLast?_append_cons]
  cases t.is_completed <;> rfl

lemma stripCr_of_getLast {l : List Char} (h : l.getLast? ≠ some '\r') : stripCr l = l := by
  unfold stripCr
  rw [if_neg h]

lemma stripCr_todoChars (t : Todo) : stripCr (todoChars t) = todoChars t := by
  apply stripCr_of_getLast
  rw [getLast?_todoChars]
  decide

lemma stripCr_metaChars (m : Metadata) : stripCr (metaChars m) = metaChars m := by
  apply stripCr_of_getLast
  intro h
  have hmem : '\r' ∈ metaChars m := mem_of_getLast?_eq h
  rcases mem_metaChars hmem with h1 | h1
  · exact absurd h1 (by decide)
  · exact absurd h1 (by decide)

lemma dropTrailEmpty_of_ne {parts : List (List Char)} (h : ∀ x ∈ parts, x ≠ []) :
    dropTrailEmpty parts = parts := by
  unfold dropTrailEmpty
  cases e : parts.getLast? with
  | none => simp
  | some y =>
    have hy : y ≠ [] := h y (mem_of_getLast?_eq e)
    simp [hy]

lemma map_stripCr_of {parts : List (List Char)}
    (h : ∀ x ∈ parts, x.getLast? ≠ some '\r') : parts.map stripCr = parts := by
  induction parts with
  | nil => rfl
  | cons x xs ih =>
    rw [List.map_cons, stripCr_of_getLast (h x (List.mem_cons_self x xs)),
      ih fun y hy => h y (List.mem_cons_of_mem x hy)]

lemma splitNl_joinNl {bs : List (List Char)} (h : ∀ b ∈ bs, ('\n' : Char) ∉ b)
    (hne : bs ≠ []) : splitOnChar '\n' (joinNl bs) = bs := by
  induction bs with
  | nil => exact absurd rfl hne
  | cons x xs ih =>
    cases xs with
    | nil => exact splitOnChar_no_sep (h x (List.mem_cons_self x []))
    | cons y ys =>
      rw [show joinNl (x :: y :: ys) = x ++ '\n' :: joinNl (y :: ys) from rfl,
        splitOnChar_append _ (h x (List.mem_cons_self x (y :: ys))),
        ih (fun b hb => h b (List.mem_cons_of_mem x hb)) (List.cons_ne_nil y ys)]

lemma rustLines_saveFile (m : Metadata) (ts : List Todo)
    (h : ∀ t ∈ ts, ('\n' : Char) ∉ t.text) :
    rustLines (saveFile m ts) = metaChars m :: ts.map todoChars := by
  unfold rustLines saveFile
  cases ts with
  | nil =>
    rw [show joinNl (List.map todoChars []) = [] from rfl,
      splitOnChar_append _ (metaChars_no_nl m),
      show splitOnChar '\n' [] = [[]] from rfl]
    rw [show dropTrailEmpty [metaChars m, []] = [metaChars m] from by
      unfold dropTrailEmpty; simp]
    rw [List.map_singleton, stripCr_metaChars]
    rfl
  | cons t ts' =>
    have hlines : ∀ b ∈ List.map todoChars (t :: ts'), ('\n' : Char) ∉ b := by
      intro b hb
      obtain ⟨u, hu, rfl⟩ := List.mem_map.mp hb
      exact todoChars_no_nl (h u hu)
    rw [splitOnChar_append _ (metaChars_no_nl m),
      splitNl_joinNl hlines (by simp)]
    rw [dropTrailEmpty_of_ne ?hne]
    case hne =>
      intro x hx
      rcases List.mem_cons.mp hx with hx | hx
      · subst hx
        intro e
        unfold metaChars at e
        rw [List.append_eq_nil] at e
        exact absurd e.1 (by decide)
      · obtain ⟨u, hu, rfl⟩ := List.mem_map.mp hx
        exact todoChars_ne_nil u
    apply map_stripCr_of
    intro x hx
    rcases List.mem_cons.mp hx with hx | hx
    · subst hx
      intro e
      have hmem : '\r' ∈ metaChars m := mem_of_getLast?_eq e
      rcases mem_metaChars hmem with h1 | h1
      · exact absurd h1 (by decide)
      · exact absurd h1 (by decide)
    · obtain ⟨u, hu, rfl⟩ := List.mem_map.mp hx
      rw [getLast?_todoChars]
      decide

/-! ## Round-trip lemmas -/

lemma todoChars_assoc (t : Todo) :
    todoChars t = natToChars t.id ++ ',' ::
      (t.created_at.val ++ ',' :: (t.text ++ ',' :: boolChars t.is_completed)) := by
  unfold todoChars
  simp [List.append_assoc]

lemma comma_not_mem_natToChars (n : Nat) : (',' : Char) ∉ natToChars n :=
  fun hm => absurd ((natToChars_spec n).2.1 _ hm) (by decide)

lemma comma_not_mem_ts (t : Ts) : (',' : Char) ∉ t.val :=
  fun hm => absurd (tsWf_mem t.property hm) (by decide)

lemma comma_not_mem_boolChars (b : Bool) : (',' : Char) ∉ boolChars b :=
  fun hm => absurd (boolChars_mem hm) (by decide)

lemma splitOnChar_todoChars {t : Todo} (h : (',' : Char) ∉ t.text) :
    splitOnChar ',' (todoChars t)
      = [natToChars t.id, t.created_at.val, t.text, boolChars t.is_completed] := by
  rw [todoChars_assoc, splitOnChar_append _ (comma_not_mem_natToChars t.id),
    splitOnChar_append _ (comma_not_mem_ts t.created_at), splitOnChar_append _ h,
    splitOnChar_no_sep (comma_not_mem_boolChars t.is_completed)]

lemma parseTodo_todoChars {t : Todo} (hid : t.id < U32LIM) (h : (',' : Char) ∉ t.text) :
    parseTodo (todoChars t) = some t := by
  simp only [parseTodo, splitOnChar_todoChars h]
  rw [parseU32_natToChars hid, parseTs_val, parseBool_boolChars]

lemma parseTodo_eq_none_of_length {l : List Char}
    (h : (splitOnChar ',' l).length ≠ 4) : parseTodo l = none := by
  unfold parseTodo
  split
  · rename_i e0 e1 e2 e3 heq
    rw [heq] at h
    simp at h
  · rfl

lemma count_comma_todoChars (t : Todo) :
    (todoChars t).count ',' = t.text.count ',' + 3 := by
  have hid : (natToChars t.id).count ',' = 0 :=
    List.count_eq_zero.mpr (comma_not_mem_natToChars t.id)
  have hts : (t.created_at.val).count ',' = 0 :=
    List.count_eq_zero.mpr (comma_not_mem_ts t.created_at)
  have hb : (boolChars t.is_completed).count ',' = 0 :=
    List.count_eq_zero.mpr (comma_not_mem_boolChars t.is_completed)
  unfold todoChars
  rw [List.count_append, List.count_append, List.count_append,
    List.count_cons_self, List.count_cons_self, List.count_cons_self,
    hid, hts, hb]
  omega

lemma parseTodo_comma {t : Todo} (h : (',' : Char) ∈ t.text) :
    parseTodo (todoChars t) = none := by
  apply parseTodo_eq_none_of_length
  rw [splitOnChar_length, count_comma_todoChars]
  have hpos : 0 < t.text.count ',' := List.count_pos_iff.mpr h
  omega

lemma parseAll_map_todoChars {ts : List Todo}
    (h : ∀ t ∈ ts, parseTodo (todoChars t) = some t) :
    parseAll (ts.map todoChars) = some ts := by
  induction ts with
  | nil => rfl
  | cons t ts' ih =>
    have h1 := h t (List.mem_cons_self t ts')
    have h2 := ih fun u hu => h u (List.mem_cons_of_mem t hu)
    simp [parseAll, h1, h2]

lemma parseAll_none {ls : List (List Char)} :
    parseAll ls = none ↔ ∃ l ∈ ls, parseTodo l = none := by
  induction ls with
  | nil => simp [parseAll]
  | cons x xs ih =>
    constructor
    · intro h
      cases e1 : parseTodo x with
      | none => exact ⟨x, List.mem_cons_self x xs, e1⟩
      | some t =>
        cases e2 : parseAll xs with
        | none =>
          obtain ⟨l, hl, hp⟩ := ih.mp e2
          exact ⟨l, List.mem_cons_of_mem x hl, hp⟩
        | some ts => simp [parseAll, e1, e2] at h
    · rintro ⟨l, hl, hp⟩
      rcases List.mem_cons.mp hl with rfl | hl
      · simp [parseAll, hp]
      · have h2 : parseAll xs = none := ih.mpr ⟨l, hl, hp⟩
        cases e1 : parseTodo x <;> simp [parseAll, e1, h2]

lemma digit_not_ws {c : Char} (h : c.isDigit = true) : wsChar c = false := by
  cases e : wsChar c
  · rfl
  · exfalso
    unfold wsChar at e
    simp only [Bool.or_eq_true, decide_eq_true_eq] at e
    rcases e with ((e | e) | e) | e <;> subst e <;> exact absurd h (by decide)

lemma rustTrim_metaChars (m : Metadata) : rustTrim (metaChars m) = metaChars m := by
  apply rustTrim_no_ws
  intro c hc
  rcases mem_metaChars hc with h | h
  · fin_cases h <;> decide
  · exact digit_not_ws h

lemma loadFile_saveFile (m : Metadata) (ts : List Todo) (hm : m.seq_id < U32LIM)
    (hnl : ∀ t ∈ ts, ('\n' : Char) ∉ t.text) :
    loadFile (some (saveFile m ts))
      = match parseAll (ts.map todoChars) with
        | some ts' => some (m, ts')
        | none => none := by
  have h1 : firstLineOf (saveFile m ts) = metaChars m := by
    rw [show saveFile m ts = metaChars m ++ '\n' :: joinNl (ts.map todoChars) from rfl,
      firstLineOf_append _ (metaChars_no_nl m)]
  show (match parseMetadata (rustTrim (firstLineOf (saveFile m ts))),
      parseAll ((rustLines (saveFile m ts)).drop 1) with
    | some m2, some ts2 => some (m2, ts2)
    | _, _ => none) = _
  rw [h1, rustTrim_metaChars, parseMetadata_metaChars hm, rustLines_saveFile m ts hnl,
    List.drop_one, List.tail_cons]
  cases parseAll (ts.map todoChars) <;> rfl

lemma saveFile_roundTrip {m : Metadata} {ts : List Todo} (hm : m.seq_id < U32LIM)
    (hts : ∀ t ∈ ts, t.id < U32LIM ∧ (',' : Char) ∉ t.text ∧ ('\n' : Char) ∉ t.text) :
    loadFile (some (saveFile m ts)) = some (m, ts) := by
  rw [loadFile_saveFile m ts hm fun t ht => (hts t ht).2.2,
    parseAll_map_todoChars fun t ht => parseTodo_todoChars (hts t ht).1 (hts t ht).2.1]

lemma loadFile_saveFile_inv {m : Metadata} {ts : List Todo} {s' : StoreState}
    (hm : m.seq_id < U32LIM)
    (hts : ∀ t ∈ ts, t.id < U32LIM ∧ ('\n' : Char) ∉ t.text)
    (h : loadFile (some (saveFile m ts)) = some s') : s' = (m, ts) := by
  rw [loadFile_saveFile m ts hm fun t ht => (hts t ht).2] at h
  cases e : parseAll (ts.map todoChars) with
  | none => rw [e] at h; exact absurd h (by simp)
  | some ts2 =>
    rw [e] at h
    have hcomma : ∀ t ∈ ts, (',' : Char) ∉ t.text := by
      intro t ht hc
      have hnone : parseAll (ts.map todoChars) = none :=
        parseAll_none.mpr ⟨todoChars t, List.mem_map_of_mem _ ht, parseTodo_comma hc⟩
      exact Option.noConfusion (hnone ▸ e)
    have hall : parseAll (ts.map todoChars) = some ts :=
      parseAll_map_todoChars fun t ht => parseTodo_todoChars (hts t ht).1 (hcomma t ht)
    rw [hall] at e
    injection e with e2
    subst e2
    injection h with h2
    exact h2.symm

/-! ## Operation lemmas -/

lemma set_cons_eq {t : Todo} {ts : List Todo} {i : Nat} (h : t.id = i) :
    set_todo_completed (t :: ts) i = ({ t with is_completed := true } :: ts, true) := by
  simp [set_todo_completed, h]

lemma set_cons_ne {t : Todo} {ts : List Todo} {i : Nat} (h : ¬t.id = i) :
    set_todo_completed (t :: ts) i
      = (t :: (set_todo_completed ts i).1, (set_todo_completed ts i).2) := by
  simp [set_todo_completed, h]

lemma del_cons_eq {t : Todo} {ts : List Todo} {i : Nat} (h : t.id = i) :
    delete_todo (t :: ts) i = (ts, true) := by
  simp [delete_todo, h]

lemma del_cons_ne {t : Todo} {ts : List Todo} {i : Nat} (h : ¬t.id = i) :
    delete_todo (t :: ts) i
      = (t :: (delete_todo ts i).1, (delete_todo ts i).2) := by
  simp [delete_todo, h]

lemma set_todo_completed_found (ts : List Todo) (i : Nat) :
    (set_todo_completed ts i).2 = true ↔ ∃ t ∈ ts, t.id = i := by
  induction ts with
  | nil => simp [set_todo_completed]
  | cons t ts' ih =>
    by_cases h : t.id = i
    · rw [set_cons_eq h]
      simp [h]
    · rw [set_cons_ne h]
      simp [ih, h]

lemma set_todo_completed_ids (ts : List Todo) (i : Nat) :
    (set_todo_completed ts i).1.map (fun t => t.id) = ts.map fun t => t.id := by
  induction ts with
  | nil => rfl
  | cons t ts' ih =>
    by_cases h : t.id = i
    · rw [set_cons_eq h]
      simp
    · rw [set_cons_ne h]
      simp [ih]

lemma set_todo_completed_mem {ts : List Todo} {i : Nat} {u : Todo}
    (hu : u ∈ (set_todo_completed ts i).1) :
    ∃ t ∈ ts, u.id = t.id ∧ u.text = t.text := by
  induction ts with
  | nil => simp [set_todo_completed] at hu
  | cons t ts' ih =>
    by_cases h : t.id = i
    · rw [set_cons_eq h] at hu
      rcases List.mem_cons.mp hu with rfl | hu
      · exact ⟨t, List.mem_cons_self t ts', rfl, rfl⟩
      · exact ⟨u, List.mem_cons_of_mem t hu, rfl, rfl⟩
    · rw [set_cons_ne h] at hu
      rcases List.mem_cons.mp hu with rfl | hu
      · exact ⟨u, List.mem_cons_self u ts', rfl, rfl⟩
      · obtain ⟨v, hv, h1, h2⟩ := ih hu
        exact ⟨v, List.mem_cons_of_mem t hv, h1, h2⟩

lemma set_todo_completed_sets {ts : List Todo} {i : Nat} (h : ∃ t ∈ ts, t.id = i) :
    ∃ u ∈ (set_todo_completed ts i).1, u.id = i ∧ u.is_completed = true := by
  induction ts with
  | nil => simp at h
  | cons t ts' ih =>
    by_cases ht : t.id = i
    · refine ⟨{ t with is_completed := true }, ?_, ht, rfl⟩
      rw [set_cons_eq ht]
      exact List.mem_cons_self _ _
    · obtain ⟨u, hu, hui⟩ := h
      rcases List.mem_cons.mp hu with rfl | hu
      · exact absurd hui ht
      · obtain ⟨v, hv, h1, h2⟩ := ih ⟨u, hu, hui⟩
        refine ⟨v, ?_, h1, h2⟩
        rw [set_cons_ne ht]
        exact List.mem_cons_of_mem t hv

lemma set_todo_completed_not_found {ts : List Todo} {i : Nat}
    (h : ∀ t ∈ ts, t.id ≠ i) : set_todo_completed ts i = (ts, false) := by
  induction ts with
  | nil => rfl
  | cons t ts' ih =>
    rw [set_cons_ne (h t (List.mem_cons_self t ts')),
      ih fun u hu => h u (List.mem_cons_of_mem t hu)]

lemma delete_todo_not_found {ts : List Todo} {i : Nat}
    (h : ∀ t ∈ ts, t.id ≠ i) : delete_todo ts i = (ts, false) := by
  induction ts with
  | nil => rfl
  | cons t ts' ih =>
    rw [del_cons_ne (h t (List.mem_cons_self t ts')),
      ih fun u hu => h u (List.mem_cons_of_mem t hu)]

lemma delete_todo_found (ts : List Todo) (i : Nat) :
    (delete_todo ts i).2 = true ↔ ∃ t ∈ ts, t.id = i := by
  induction ts with
  | nil => simp [delete_todo]
  | cons t ts' ih =>
    by_cases h : t.id = i
    · rw [del_cons_eq h]
      simp [h]
    · rw [del_cons_ne h]
      simp [ih, h]

lemma delete_todo_sublist (ts : List Todo) (i : Nat) :
    List.Sublist (delete_todo ts i).1 ts := by
  induction ts with
  | nil => exact List.Sublist.refl _
  | cons t ts' ih =>
    by_cases h : t.id = i
    · rw [del_cons_eq h]
      exact List.sublist_cons_self t ts'
    · rw [del_cons_ne h]
      exact ih.cons₂ t

lemma delete_todo_length {ts : List Todo} {i : Nat}
    (h : (delete_todo ts i).2 = true) :
    (delete_todo ts i).1.length + 1 = ts.length := by
  induction ts with
  | nil => simp [delete_todo] at h
  | cons t ts' ih =>
    by_cases ht : t.id = i
    · rw [del_cons_eq ht]
      simp
    · rw [del_cons_ne ht] at h ⊢
      rw [List.length_cons, ih h, List.length_cons]

lemma delete_todo_removes {ts : List Todo} {i : Nat}
    (hp : ts.Pairwise fun a b => a.id ≠ b.id) :
    ∀ u ∈ (delete_todo ts i).1, u.id ≠ i := by
  induction ts with
  | nil => simp [delete_todo]
  | cons t ts' ih =>
    obtain ⟨h1, h2⟩ := List.pairwise_cons.mp hp
    by_cases h : t.id = i
    · rw [del_cons_eq h]
      intro u hu e
      exact h1 u hu (h.trans e.symm)
    · rw [del_cons_ne h]
      intro u hu
      rcases List.mem_cons.mp hu with rfl | hu
      · exact h
      · exact ih h2 u hu

lemma new_todo_some {m : Metadata} {input : List Char} {now : Ts} {m' : Metadata}
    {t : Todo} (h : new_todo m input now = some (m', t)) :
    m'.seq_id = m.seq_id + 1 ∧ t.id = m.seq_id + 1 ∧ t.text = rustTrim input ∧
      t.is_completed = false ∧ t.created_at = now ∧ m.seq_id + 1 < U32LIM := by
  unfold new_todo at h
  split at h
  · rename_i hg
    injection h with h2
    obtain ⟨h3, h4⟩ := Prod.ext_iff.mp h2
    subst h3
    subst h4
    exact ⟨rfl, rfl, rfl, rfl, rfl, hg⟩
  · exact Option.noConfusion h

/-- The listing of all tasks is the collection itself. -/
lemma listTodos_false (ts : List Todo) : listTodos ts false = ts := by
  unfold listTodos
  simp

lemma filter_ext {p q : Todo → Bool} (h : ∀ t, p t = q t) (l : List Todo) :
    l.filter p = l.filter q := by
  induction l with
  | nil => rfl
  | cons t ts ih =>
    rw [List.filter_cons, List.filter_cons, h t, ih]

/-- Every operation preserves the data-model constraints (and with them
the id invariant). -/
lemma step_preserves {s s' : StoreState} {op : Op}
    (hok : StoreOk s) (hstep : Step s op s') : StoreOk s' := by
  obtain ⟨⟨hle, hpw⟩, hseq, hts⟩ := hok
  cases hstep with
  | create m ts input now m' t hnl hnew =>
    have hle2 : ∀ u ∈ ts, u.id ≤ m.seq_id := hle
    obtain ⟨hm', hid, htext, hcomp, hca, hlt⟩ := new_todo_some hnew
    refine ⟨⟨?_, ?_⟩, ?_, ?_⟩
    · intro u hu
      rcases List.mem_append.mp hu with hu | hu
      · have := hle2 u hu
        rw [hm']
        omega
      · rw [List.mem_singleton] at hu
        subst hu
        rw [hid, hm']
    · rw [List.pairwise_append]
      refine ⟨hpw, List.pairwise_singleton _ _, ?_⟩
      intro u hu v hv
      rw [List.mem_singleton] at hv
      subst hv
      rw [hid]
      have := hle2 u hu
      omega
    · rw [hm']
      exact hlt
    · intro u hu
      rcases List.mem_append.mp hu with hu | hu
      · exact hts u hu
      · rw [List.mem_singleton] at hu
        subst hu
        refine ⟨by rw [hid]; exact hlt, ?_⟩
        rw [htext]
        exact fun hmem => hnl (mem_rustTrim hmem)
  | complete m ts i =>
    refine ⟨⟨?_, ?_⟩, hseq, ?_⟩
    · intro u hu
      obtain ⟨t', ht', h1, h2⟩ := set_todo_completed_mem hu
      rw [h1]
      exact hle t' ht'
    · have h1 : (ts.map fun t => t.id).Pairwise (fun a b => a ≠ b) :=
        List.pairwise_map.mpr hpw
      rw [← set_todo_completed_ids ts i] at h1
      exact List.pairwise_map.mp h1
    · intro u hu
      obtain ⟨t', ht', h1, h2⟩ := set_todo_completed_mem hu
      rw [h1, h2]
      exact hts t' ht'
  | del m ts i =>
    have hsub := delete_todo_sublist ts i
    exact ⟨⟨fun u hu => hle u (hsub.subset hu), hpw.sublist hsub⟩, hseq,
      fun u hu => hts u (hsub.subset hu)⟩
  | saveload m ts s2 hload =>
    have heq : s' = (m, ts) :=
      loadFile_saveFile_inv hseq (fun t ht => ⟨(hts t ht).1, (hts t ht).2⟩) hload
    subst heq
    exact ⟨⟨hle, hpw⟩, hseq, hts⟩

/-! ## Load-failure characterization -/

lemma length_eq_four {α : Type} {xs : List α} (h : xs.length = 4) :
    ∃ a b c d, xs = [a, b, c, d] := by
  rcases xs with _ | ⟨a, _ | ⟨b, _ | ⟨c, _ | ⟨d, _ | ⟨e, rest⟩⟩⟩⟩⟩
  · simp at h
  · simp at h
  · simp at h
  · simp at h
  · exact ⟨a, b, c, d, rfl⟩
  · simp [List.length_cons] at h

lemma parseTodo_none_iff (l : List Char) :
    parseTodo l = none ↔
      ((splitOnChar ',' l).length ≠ 4 ∨
        ∃ e0 e1 e2 e3, splitOnChar ',' l = [e0, e1, e2, e3] ∧
          (parseU32 e0 = none ∨ parseTs e1 = none ∨ parseBool e3 = none)) := by
  constructor
  · intro h
    by_cases hlen : (splitOnChar ',' l).length = 4
    · obtain ⟨a, b, c, d, he⟩ := length_eq_four hlen
      refine Or.inr ⟨a, b, c, d, he, ?_⟩
      simp only [parseTodo, he] at h
      cases e0 : parseU32 a with
      | none => exact Or.inl rfl
      | some i =>
        cases e1 : parseTs b with
        | none => exact Or.inr (Or.inl rfl)
        | some ca =>
          cases e3 : parseBool d with
          | none => exact Or.inr (Or.inr rfl)
          | some bb => simp [e0, e1, e3] at h
    · exact Or.inl hlen
  · intro h
    rcases h with hlen | ⟨a, b, c, d, he, hbad⟩
    · exact parseTodo_eq_none_of_length hlen
    · simp only [parseTodo, he]
      rcases hbad with h' | h' | h' <;>
        cases e0 : parseU32 a <;> cases e1 : parseTs b <;> cases e3 : parseBool d <;>
          simp_all

lemma loadFile_some_unfold (s : List Char) :
    loadFile (some s) =
      match parseMetadata (rustTrim (firstLineOf s)), parseAll ((rustLines s).drop 1) with
      | some m2, some ts2 => some (m2, ts2)
      | _, _ => none := rfl

lemma loadFile_none_iff (s : List Char) :
    loadFile (some s) = none ↔
      parseMetadata (rustTrim (firstLineOf s)) = none ∨
        parseAll ((rustLines s).drop 1) = none := by
  rw [loadFile_some_unfold]
  cases e1 : parseMetadata (rustTrim (firstLineOf s)) <;>
    cases e2 : parseAll ((rustLines s).drop 1) <;> simp

lemma firstLineOf_saveFile (m : Metadata) (ts : List Todo) :
    firstLineOf (saveFile m ts) = metaChars m := by
  rw [show saveFile m ts = metaChars m ++ '\n' :: joinNl (ts.map todoChars) from rfl,
    firstLineOf_append _ (metaChars_no_nl m)]

lemma loadFile_some_meta {s : List Char} {st : StoreState}
    (h : loadFile (some s) = some st) :
    parseMetadata (rustTrim (firstLineOf s)) = some st.1 := by
  cases e1 : parseMetadata (rustTrim (firstLineOf s)) with
  | none =>
    have hnone : loadFile (some s) = none := by
      rw [loadFile_none_iff]
      exact Or.inl e1
    rw [hnone] at h
    exact Option.noConfusion h
  | some m2 =>
    cases e2 : parseAll ((rustLines s).drop 1) with
    | none =>
      have hnone : loadFile (some s) = none := by
        rw [loadFile_none_iff]
        exact Or.inr e2
      rw [hnone] at h
      exact Option.noConfusion h
    | some ts2 =>
      have h2 : loadFile (some s) = some (m2, ts2) := by
        rw [loadFile_some_unfold, e1, e2]
      rw [h2] at h
      injection h with h3
      rw [← h3]

lemma loadFile_saveFile_seq {m : Metadata} {ts : List Todo} {st : StoreState}
    (hm : m.seq_id < U32LIM) (h : loadFile (some (saveFile m ts)) = some st) :
    st.1 = m := by
  have h2 := loadFile_some_meta h
  rw [firstLineOf_saveFile, rustTrim_metaChars, parseMetadata_metaChars hm] at h2
  injection h2 with h3
  exact h3.symm

/-! ## The claims -/

/-- C1, counterexample: the claim quantifies over every collection of
tasks, but a task whose text contains a comma breaks the round trip —
its serialized line splits into five fields, so the saved file fails to
load at all instead of reproducing the collection. -/
theorem c1_roundTrip_counterexample :
    loadFile (some (saveFile ⟨1⟩ [⟨1, false, ['a', ',', 'b'], sampleTs⟩]))
      ≠ some (⟨1⟩, [⟨1, false, ['a', ',', 'b'], sampleTs⟩]) := by decide

/-- C1, amended: for every u32 sequence counter value and every
collection of tasks whose texts contain no comma (texts contain no
newline per the data model), `save()` followed by `load()` yields an
equal sequence counter and an equal ordered collection of tasks — id,
text, completion flag and rendered timestamp all equal. -/
theorem c1_save_load_roundTrip (m : Metadata) (ts : List Todo)
    (hm : m.seq_id < U32LIM)
    (hts : ∀ t ∈ ts, t.id < U32LIM ∧ (',' : Char) ∉ t.text ∧ ('\n' : Char) ∉ t.text) :
    loadFile (some (saveFile m ts)) = some (m, ts) :=
  saveFile_roundTrip hm hts

/-- C1, witness: the round trip at a concrete store. -/
theorem c1_save_load_roundTrip_witness :
    loadFile (some (saveFile ⟨2⟩
        [⟨1, false, ['m', 'i', 'l', 'k'], sampleTs⟩, ⟨2, true, ['d', 'o', 'g'], sampleTs⟩]))
      = some (⟨2⟩,
        [⟨1, false, ['m', 'i', 'l', 'k'], sampleTs⟩, ⟨2, true, ['d', 'o', 'g'], sampleTs⟩]) :=
  c1_save_load_roundTrip ⟨2⟩
    [⟨1, false, ['m', 'i', 'l', 'k'], sampleTs⟩, ⟨2, true, ['d', 'o', 'g'], sampleTs⟩]
    (by decide) (by decide)

/-- C2, counterexample: `load` performs no consistency check, so a state
whose task id exceeds the stored counter is reachable (booting from
`badBootFile`); after a `complete` operation on it, the invariant still
fails — the id `5` is not bounded by the counter `0`. -/
theorem c2_invariant_counterexample :
    Reachable (⟨0⟩, [⟨5, false, ['a'], sampleTs⟩]) ∧
    Step (⟨0⟩, [⟨5, false, ['a'], sampleTs⟩]) (.complete 5)
      (⟨0⟩, [⟨5, true, ['a'], sampleTs⟩]) ∧
    ¬StoreInv (⟨0⟩, [⟨5, true, ['a'], sampleTs⟩]) := by
  refine ⟨Reachable.boot badBootFile _ (by decide), ?_, ?_⟩
  · exact Step.complete ⟨0⟩ [⟨5, false, ['a'], sampleTs⟩] 5
  · intro h
    exact absurd (h.1 ⟨5, true, ['a'], sampleTs⟩ (List.mem_singleton.mpr rfl)) (by decide)

/-- C2, amended: from any store state satisfying the invariant (together
with the data model's u32 ranges and newline-free texts), every store
operation — create, complete, delete, and save-then-load when the load
succeeds — leaves a state satisfying the invariant again. -/
theorem c2_invariant_preserved {s s' : StoreState} {op : Op}
    (hok : StoreOk s) (hstep : Step s op s') : StoreInv s' ∧ StoreOk s' := by
  have h := step_preserves hok hstep
  exact ⟨h.1, h⟩

/-- C2, witness: preservation at a concrete state and operation. -/
theorem c2_invariant_preserved_witness :
    StoreInv (deleteOp (⟨1⟩, [⟨1, false, ['a'], sampleTs⟩]) 1).1 ∧
      StoreOk (deleteOp (⟨1⟩, [⟨1, false, ['a'], sampleTs⟩]) 1).1 :=
  c2_invariant_preserved
    ⟨⟨by
        intro t ht
        rw [List.mem_singleton] at ht
        subst ht
        decide,
      List.pairwise_singleton _ _⟩,
      by decide,
      by
        intro t ht
        rw [List.mem_singleton] at ht
        subst ht
        exact ⟨by decide, by decide⟩⟩
    (Step.del ⟨1⟩ [⟨1, false, ['a'], sampleTs⟩] 1)

/-- C3: two consecutive successful creates return ids that step by
exactly 1 (each create returns the incremented counter); and after
`save()` followed by a successful `load()`, the next successful create
returns an id strictly greater than the counter and hence strictly
greater than every id assigned before the save. -/
theorem c3_id_monotonic :
    (∀ (m : Metadata) (i₁ : List Char) (n₁ : Ts) (i₂ : List Char) (n₂ : Ts)
        (m₁ : Metadata) (t₁ : Todo) (m₂ : Metadata) (t₂ : Todo),
      new_todo m i₁ n₁ = some (m₁, t₁) → new_todo m₁ i₂ n₂ = some (m₂, t₂) →
      t₁.id = m.seq_id + 1 ∧ t₂.id = t₁.id + 1) ∧
    (∀ (m : Metadata) (ts : List Todo) (st : StoreState) (i : List Char) (n : Ts)
        (m₂ : Metadata) (t : Todo),
      (∀ u ∈ ts, u.id ≤ m.seq_id) → m.seq_id < U32LIM →
      loadFile (some (saveFile m ts)) = some st →
      new_todo st.1 i n = some (m₂, t) →
      m.seq_id < t.id ∧ ∀ u ∈ ts, u.id < t.id) := by
  constructor
  · intro m i₁ n₁ i₂ n₂ m₁ t₁ m₂ t₂ h1 h2
    obtain ⟨hm₁, hid₁, -, -, -, -⟩ := new_todo_some h1
    obtain ⟨-, hid₂, -, -, -, -⟩ := new_todo_some h2
    rw [hid₁, hid₂, hm₁]
    exact ⟨rfl, rfl⟩
  · intro m ts st i n m₂ t hle hm hload hnew
    obtain ⟨-, hid, -, -, -, -⟩ := new_todo_some hnew
    have hst : st.1 = m := loadFile_saveFile_seq hm hload
    rw [hid, hst]
    exact ⟨Nat.lt_succ_self _, fun u hu => Nat.lt_succ_of_le (hle u hu)⟩

/-- C3, witness: ids 1 and 2 from two creates on a fresh counter, and
id resumption above the saved collection. -/
theorem c3_id_monotonic_witness :
    ((⟨1, false, ['a'], sampleTs⟩ : Todo).id = (⟨0⟩ : Metadata).seq_id + 1 ∧
      (⟨2, false, ['b'], sampleTs⟩ : Todo).id = (⟨1, false, ['a'], sampleTs⟩ : Todo).id + 1) ∧
    ((⟨3⟩ : Metadata).seq_id < (⟨4, false, ['c'], sampleTs⟩ : Todo).id ∧
      ∀ u ∈ [(⟨3, true, ['x'], sampleTs⟩ : Todo)],
        u.id < (⟨4, false, ['c'], sampleTs⟩ : Todo).id) :=
  ⟨c3_id_monotonic.1 ⟨0⟩ ['a'] sampleTs ['b'] sampleTs ⟨1⟩
      ⟨1, false, ['a'], sampleTs⟩ ⟨2⟩ ⟨2, false, ['b'], sampleTs⟩ (by decide) (by decide),
    c3_id_monotonic.2 ⟨3⟩ [⟨3, true, ['x'], sampleTs⟩]
      (⟨3⟩, [⟨3, true, ['x'], sampleTs⟩]) ['c'] sampleTs ⟨4⟩ ⟨4, false, ['c'], sampleTs⟩
      (by decide) (by decide) (by decide) (by decide)⟩

/-- C4: `complete(id)` reports not-found exactly when no task with that
id is in the collection; when the id is present, two calls in a row both
report success and after each call the matching task's completion flag
is true. -/
theorem c4_complete_idempotent (ts : List Todo) (i : Nat) :
    ((set_todo_completed ts i).2 = false ↔ ∀ t ∈ ts, t.id ≠ i) ∧
    ((∃ t ∈ ts, t.id = i) →
      (set_todo_completed ts i).2 = true ∧
      (∃ u ∈ (set_todo_completed ts i).1, u.id = i ∧ u.is_completed = true) ∧
      (set_todo_completed (set_todo_completed ts i).1 i).2 = true ∧
      ∃ u ∈ (set_todo_completed (set_todo_completed ts i).1 i).1,
        u.id = i ∧ u.is_completed = true) := by
  constructor
  · constructor
    · intro hf t ht he
      have htrue := (set_todo_completed_found ts i).mpr ⟨t, ht, he⟩
      rw [htrue] at hf
      exact Bool.noConfusion hf
    · intro hall
      cases e : (set_todo_completed ts i).2
      · rfl
      · obtain ⟨t, ht, he⟩ := (set_todo_completed_found ts i).mp e
        exact absurd he (hall t ht)
  · intro h
    have h1 : (set_todo_completed ts i).2 = true := (set_todo_completed_found ts i).mpr h
    obtain ⟨u, hu, hui, huc⟩ := set_todo_completed_sets h
    have h2 : ∃ t ∈ (set_todo_completed ts i).1, t.id = i := ⟨u, hu, hui⟩
    have h3 : (set_todo_completed (set_todo_completed ts i).1 i).2 = true :=
      (set_todo_completed_found _ i).mpr h2
    obtain ⟨v, hv, hvi, hvc⟩ := set_todo_completed_sets h2
    exact ⟨h1, ⟨u, hu, hui, huc⟩, h3, v, hv, hvi, hvc⟩

/-- C4, witness: completing id 1 twice in a concrete collection. -/
theorem c4_complete_idempotent_witness :
    (set_todo_completed [⟨1, false, ['a'], sampleTs⟩] 1).2 = true ∧
    (∃ u ∈ (set_todo_completed [⟨1, false, ['a'], sampleTs⟩] 1).1,
      u.id = 1 ∧ u.is_completed = true) ∧
    (set_todo_completed (set_todo_completed [⟨1, false, ['a'], sampleTs⟩] 1).1 1).2 = true ∧
    ∃ u ∈ (set_todo_completed (set_todo_completed [⟨1, false, ['a'], sampleTs⟩] 1).1 1).1,
      u.id = 1 ∧ u.is_completed = true :=
  (c4_complete_idempotent [⟨1, false, ['a'], sampleTs⟩] 1).2
    ⟨⟨1, false, ['a'], sampleTs⟩, List.mem_singleton.mpr rfl, rfl⟩

/-- C5: the open-only listing is exactly the full listing filtered to
tasks whose completion flag is false, in the same relative order. -/
theorem c5_list_open_filter (ts : List Todo) :
    listTodos ts true = (listTodos ts false).filter fun t => t.is_completed = false := by
  rw [listTodos_false]
  unfold listTodos
  apply filter_ext
  intro t
  cases e : t.is_completed <;> simp [e]

/-- C6 (reading "collection" as the spec's data model, whose task ids
are unique): deleting a present id succeeds, the full listing afterwards
has no task with that id, the length drops by exactly one, and an
immediate second delete of the same id reports not-found and changes
nothing. -/
theorem c6_delete (ts : List Todo) (i : Nat)
    (hp : ts.Pairwise fun a b => a.id ≠ b.id) (h : ∃ t ∈ ts, t.id = i) :
    (delete_todo ts i).2 = true ∧
    (∀ u ∈ listTodos (delete_todo ts i).1 false, u.id ≠ i) ∧
    (delete_todo ts i).1.length + 1 = ts.length ∧
    delete_todo (delete_todo ts i).1 i = ((delete_todo ts i).1, false) := by
  have h1 : (delete_todo ts i).2 = true := (delete_todo_found ts i).mpr h
  have h2 := delete_todo_removes (i := i) hp
  refine ⟨h1, ?_, delete_todo_length h1, delete_todo_not_found h2⟩
  rw [listTodos_false]
  exact h2

/-- C6, witness: deleting id 1 from a two-task collection. -/
theorem c6_delete_witness :
    (delete_todo [⟨1, false, ['a'], sampleTs⟩, ⟨2, true, ['b'], sampleTs⟩] 1).2 = true ∧
    (∀ u ∈ listTodos
        (delete_todo [⟨1, false, ['a'], sampleTs⟩, ⟨2, true, ['b'], sampleTs⟩] 1).1 false,
      u.id ≠ 1) ∧
    (delete_todo [⟨1, false, ['a'], sampleTs⟩, ⟨2, true, ['b'], sampleTs⟩] 1).1.length + 1
      = ([⟨1, false, ['a'], sampleTs⟩, ⟨2, true, ['b'], sampleTs⟩] : List Todo).length ∧
    delete_todo (delete_todo [⟨1, false, ['a'], sampleTs⟩, ⟨2, true, ['b'], sampleTs⟩] 1).1 1
      = ((delete_todo [⟨1, false, ['a'], sampleTs⟩, ⟨2, true, ['b'], sampleTs⟩] 1).1, false) :=
  c6_delete [⟨1, false, ['a'], sampleTs⟩, ⟨2, true, ['b'], sampleTs⟩] 1
    (by
      refine List.pairwise_cons.mpr ⟨?_, List.pairwise_singleton _ _⟩
      intro u hu
      rw [List.mem_singleton] at hu
      subst hu
      decide)
    ⟨⟨1, false, ['a'], sampleTs⟩, List.mem_cons_self _ _, rfl⟩

/-- C7: when no task has the requested id, both complete and delete
report not-found and leave the whole store state — collection contents,
order, and sequence counter — unchanged. -/
theorem c7_missing_id_unchanged (m : Metadata) (ts : List Todo) (i : Nat)
    (h : ∀ t ∈ ts, t.id ≠ i) :
    completeOp (m, ts) i = ((m, ts), false) ∧ deleteOp (m, ts) i = ((m, ts), false) := by
  have h1 := set_todo_completed_not_found h
  have h2 := delete_todo_not_found h
  constructor
  · show ((m, (set_todo_completed ts i).1), (set_todo_completed ts i).2) = ((m, ts), false)
    rw [h1]
  · show ((m, (delete_todo ts i).1), (delete_todo ts i).2) = ((m, ts), false)
    rw [h2]

/-- C7, witness: id 9 is absent from a concrete store. -/
theorem c7_missing_id_unchanged_witness :
    completeOp (⟨1⟩, [⟨1, false, ['a'], sampleTs⟩]) 9
        = ((⟨1⟩, [⟨1, false, ['a'], sampleTs⟩]), false) ∧
      deleteOp (⟨1⟩, [⟨1, false, ['a'], sampleTs⟩]) 9
        = ((⟨1⟩, [⟨1, false, ['a'], sampleTs⟩]), false) :=
  c7_missing_id_unchanged ⟨1⟩ [⟨1, false, ['a'], sampleTs⟩] 9
    (by
      intro t ht
      rw [List.mem_singleton] at ht
      subst ht
      decide)

/-- C8: the trimmed inputs `1`..`5` dispatch to exactly their listed
menu actions, and every other input — not only `6` — dispatches to
save-and-exit. -/
theorem c8_menu_dispatch :
    (∀ input, dispatch input = .showAll ↔ rustTrim input = ['1']) ∧
    (∀ input, dispatch input = .showOpen ↔ rustTrim input = ['2']) ∧
    (∀ input, dispatch input = .createTodo ↔ rustTrim input = ['3']) ∧
    (∀ input, dispatch input = .completeTodo ↔ rustTrim input = ['4']) ∧
    (∀ input, dispatch input = .deleteTodo ↔ rustTrim input = ['5']) ∧
    (∀ input, rustTrim input ∉ [['1'], ['2'], ['3'], ['4'], ['5']] →
      dispatch input = .saveAndExit) := by
  refine ⟨?_, ?_, ?_, ?_, ?_, ?_⟩ <;> intro input <;> unfold dispatch <;>
    split_ifs <;> simp_all

/-- C8, witness: `6` and arbitrary junk both fall through to
save-and-exit; a padded `3` still creates. -/
theorem c8_menu_dispatch_witness :
    dispatch ['6', '\n'] = .saveAndExit ∧
      dispatch ['h', 'i'] = .saveAndExit ∧
      (dispatch [' ', '3', '\n'] = .createTodo ↔ rustTrim [' ', '3', '\n'] = ['3']) :=
  ⟨c8_menu_dispatch.2.2.2.2.2 ['6', '\n'] (by decide),
    c8_menu_dispatch.2.2.2.2.2 ['h', 'i'] (by decide),
    c8_menu_dispatch.2.2.1 [' ', '3', '\n']⟩

/-- C9: loading fails (the process aborts with no store state) exactly
when the file is missing, the metadata line fails to parse, or some task
line is malformed — a comma field count other than 4, an id that does
not parse as a u32, an unparsable timestamp, or a completion flag that
is not a boolean literal; on a well-formed file the load succeeds. -/
theorem c9_load_failure (file : Option (List Char)) :
    loadFile file = none ↔
      file = none ∨ ∃ s, file = some s ∧
        (parseMetadata (rustTrim (firstLineOf s)) = none ∨
          ∃ l ∈ (rustLines s).drop 1,
            ((splitOnChar ',' l).length ≠ 4 ∨
              ∃ e0 e1 e2 e3, splitOnChar ',' l = [e0, e1, e2, e3] ∧
                (parseU32 e0 = none ∨ parseTs e1 = none ∨ parseBool e3 = none))) := by
  cases file with
  | none => simp [loadFile]
  | some s =>
    rw [loadFile_none_iff]
    constructor
    · rintro (hmeta | hall)
      · exact Or.inr ⟨s, rfl, Or.inl hmeta⟩
      · obtain ⟨l, hl, hp⟩ := parseAll_none.mp hall
        exact Or.inr ⟨s, rfl, Or.inr ⟨l, hl, (parseTodo_none_iff l).mp hp⟩⟩
    · rintro (hfile | ⟨s2, hs2, hbad⟩)
      · exact Option.noConfusion hfile
      · injection hs2 with hs2
        subst hs2
        rcases hbad with hmeta | ⟨l, hl, hline⟩
        · exact Or.inl hmeta
        · exact Or.inr (parseAll_none.mpr ⟨l, hl, (parseTodo_none_iff l).mpr hline⟩)

/-- C10: the text stored by create is the input line with surrounding
whitespace (including the terminating newline) trimmed; two inputs
differing only in surrounding whitespace therefore produce tasks with
identical text. -/
theorem c10_create_trims_text :
    (∀ (m : Metadata) (input : List Char) (now : Ts) (m' : Metadata) (t : Todo),
      new_todo m input now = some (m', t) → t.text = rustTrim input) ∧
    (∀ (m₁ m₂ : Metadata) (n₁ n₂ : Ts) (pre post core : List Char)
        (m₁' : Metadata) (t₁ : Todo) (m₂' : Metadata) (t₂ : Todo),
      (∀ c ∈ pre, wsChar c = true) → (∀ c ∈ post, wsChar c = true) →
      new_todo m₁ (pre ++ core ++ post) n₁ = some (m₁', t₁) →
      new_todo m₂ core n₂ = some (m₂', t₂) → t₁.text = t₂.text) := by
  constructor
  · intro m input now m' t h
    exact (new_todo_some h).2.2.1
  · intro m₁ m₂ n₁ n₂ pre post core m₁' t₁ m₂' t₂ hpre hpost h1 h2
    rw [(new_todo_some h1).2.2.1, (new_todo_some h2).2.2.1,
      rustTrim_surround hpre hpost]

/-- C10, witness: a space-padded, newline-terminated input stores the
same text as the bare input. -/
theorem c10_create_trims_text_witness :
    ((⟨1, false, ['h', 'i'], sampleTs⟩ : Todo).text = rustTrim [' ', 'h', 'i', '\n']) ∧
      ((⟨1, false, ['h', 'i'], sampleTs⟩ : Todo).text
        = (⟨1, false, ['h', 'i'], sampleTs⟩ : Todo).text) :=
  ⟨c10_create_trims_text.1 ⟨0⟩ [' ', 'h', 'i', '\n'] sampleTs ⟨1⟩
      ⟨1, false, ['h', 'i'], sampleTs⟩ (by decide),
    c10_create_trims_text.2 ⟨0⟩ ⟨0⟩ sampleTs sampleTs [' '] ['\n'] ['h', 'i'] ⟨1⟩
      ⟨1, false, ['h', 'i'], sampleTs⟩ ⟨1⟩ ⟨1, false, ['h', 'i'], sampleTs⟩
      (by decide) (by decide) (by decide) (by decide)⟩

end RustTodo
